import Mathlib

/-!
Verification of the metalness parameter-derivation program (metalness.cpp).

The C++ floating-point code is embedded shallowly over the real numbers:
`float`/`double` values become `ℝ`, arithmetic is exact real arithmetic,
and division follows Lean's total-division convention (`x / 0 = 0`).
Colors become records of three reals.  The external V-Ray SDK helpers
(`getRefractDir` / `getFresnelCoeff`, declared in `misc_ray.h` and not part
of this repository) are modelled from the specification.
-/

namespace Metalness

/-- A 3-component color, one component per sampled wavelength (red/green/blue),
mirroring `VUtils::Color`. -/
structure Color where
  r : ℝ
  g : ℝ
  b : ℝ

instance : Inhabited Color := ⟨⟨0, 0, 0⟩⟩

/-- Componentwise subtraction of colors, mirroring `Color::operator-`. -/
instance : Sub Color := ⟨fun x y => ⟨x.r - y.r, x.g - y.g, x.b - y.b⟩⟩

/-- Squared Euclidean length of a color, mirroring `Color::lengthSqr`. -/
def Color.lengthSqr (c : Color) : ℝ := c.r * c.r + c.g * c.g + c.b * c.b

/-- `VUtils::clamp(x, a, b)`: `x` if it lies in `[a, b]`, otherwise the
nearer bound. -/
noncomputable def clamp (x a b : ℝ) : ℝ :=
  if x < a then a else if b < x then b else x

/-- Numerator of the s-polarized reflectance ratio in `complexFresnel`
(source local `rs_num` with `k2 = k*k` inlined). -/
def rs_num (n k c : ℝ) : ℝ := n * n + k * k - 2 * n * c + c * c

/-- Denominator of the s-polarized reflectance ratio in `complexFresnel`. -/
def rs_den (n k c : ℝ) : ℝ := n * n + k * k + 2 * n * c + c * c

/-- Numerator of the p-polarized reflectance ratio in `complexFresnel`. -/
def rp_num (n k c : ℝ) : ℝ := (n * n + k * k) * c * c - 2 * n * c + 1

/-- Denominator of the p-polarized reflectance ratio in `complexFresnel`. -/
def rp_den (n k c : ℝ) : ℝ := (n * n + k * k) * c * c + 2 * n * c + 1

/-- `complexFresnel(n, k, c)`: reflection strength from a complex index of
refraction for one wavelength (metalness.cpp lines 128-139). -/
noncomputable def complexFresnel (n k c : ℝ) : ℝ :=
  clamp (0.5 * (rs_num n k c / rs_den n k c + rp_num n k c / rp_den n k c)) 0 1

/-- `getComplexFresnel(n, k, cs)`: the scalar formula applied independently
per wavelength component (metalness.cpp lines 145-152). -/
noncomputable def getComplexFresnel (n k : Color) (cs : ℝ) : Color :=
  ⟨complexFresnel n.r k.r cs, complexFresnel n.g k.g cs, complexFresnel n.b k.b cs⟩

/-- `n_min(r)` (metalness.cpp line 57). -/
noncomputable def n_min (r : ℝ) : ℝ := (1 - r) / (1 + r)

/-- `n_max(r)` (metalness.cpp line 61). -/
noncomputable def n_max (r : ℝ) : ℝ := (1 + Real.sqrt r) / (1 - Real.sqrt r)

/-- `get_n(r, g)` (metalness.cpp line 65). -/
noncomputable def get_n (r g : ℝ) : ℝ := n_min r * g + (1 - g) * n_max r

/-- `get_k2(r, n)` (metalness.cpp line 69). -/
noncomputable def get_k2 (r n : ℝ) : ℝ :=
  ((n + 1) * (n + 1) * r - (n - 1) * (n - 1)) / (1 - r)

/-- `get_r(n, k)` (metalness.cpp line 74). -/
noncomputable def get_r (n k : ℝ) : ℝ :=
  ((n - 1) * (n - 1) + k * k) / ((n + 1) * (n + 1) + k * k)

/-- `get_g(n, k)` (metalness.cpp line 78). -/
noncomputable def get_g (n k : ℝ) : ℝ :=
  (n_max (get_r n k) - n) / (n_max (get_r n k) - n_min (get_r n k))

/-- Modelled from the spec: the V-Ray SDK helpers `getRefractDir` and
`getFresnelCoeff` (declared in `misc_ray.h`, not part of this repository).
Per the spec, the viewing direction is built from `cosTheta`, Snell's law with
relative index `ior` gives the refraction direction (total internal reflection
is flagged but geometrically unreachable here), and the resulting unpolarized
dielectric Fresnel reflectance coefficient `f` lies in `[0, 1]`.  The two SDK
calls are collapsed into one function of `(ior, cs)`, the only data they
depend on under the fixed geometry of `getVRayMetallicFresnel`. -/
noncomputable def getFresnelCoeff (ior cs : ℝ) : ℝ :=
  let sin2t := (1 - cs * cs) / (ior * ior)
  if 1 < sin2t then 1
  else
    let ct := Real.sqrt (1 - sin2t)
    let rs := (cs - ior * ct) / (cs + ior * ct)
    let rp := (ct - ior * cs) / (ct + ior * cs)
    0.5 * (rs * rs + rp * rp)

/-- `getVRayMetallicFresnel(base, reflection, ior, cs)`: the VRayMtl metallic
Fresnel blend `base*(1-f) + reflection*f` (metalness.cpp lines 46-55), with the
SDK coefficient `f` modelled from the spec by `getFresnelCoeff`. -/
noncomputable def getVRayMetallicFresnel (base reflection : Color) (ior cs : ℝ) : Color :=
  let f := getFresnelCoeff ior cs
  ⟨base.r * (1 - f) + reflection.r * f,
   base.g * (1 - f) + reflection.g * f,
   base.b * (1 - f) + reflection.b * f⟩

/-- `olefresnel(r, g, c)`: Ole Gulbrandsen's artist-friendly metallic Fresnel
for one wavelength (metalness.cpp lines 90-106).  Clamps `r` (not `g`),
back-solves `(n, k2)` and evaluates the unclamped rs/rp average. -/
noncomputable def olefresnel (r g c : ℝ) : ℝ :=
  let _r := clamp r 0 0.99
  let n := get_n _r g
  let k2 := get_k2 _r n
  let rs_num := n * n + k2 - 2 * n * c + c * c
  let rs_den := n * n + k2 + 2 * n * c + c * c
  let rs := rs_num / rs_den
  let rp_num := (n * n + k2) * c * c - 2 * n * c + 1
  let rp_den := (n * n + k2) * c * c + 2 * n * c + 1
  let rp := rp_num / rp_den
  0.5 * (rs + rp)

/-- `getOleMetallicFresnel(base, reflection, cos_theta)` (metalness.cpp
lines 115-122): `olefresnel` applied per wavelength component. -/
noncomputable def getOleMetallicFresnel (base reflection : Color) (cos_theta : ℝ) : Color :=
  ⟨olefresnel base.r reflection.r cos_theta,
   olefresnel base.g reflection.g cos_theta,
   olefresnel base.b reflection.b cos_theta⟩

/-- The fitter's angle-sample indices: `for (int xs=1; xs<200; xs++)`
(metalness.cpp line 225). -/
def fitterXs : List ℕ := List.range' 1 199

/-- The fitter's cosine samples `x = xs / 200` (metalness.cpp line 227). -/
noncomputable def fitterSamples : List ℝ := fitterXs.map (fun xs : ℕ => (xs : ℝ) / 200)

/-- The squared-error sum one `ior` candidate accumulates over the fitter's
angle samples (metalness.cpp lines 224-237), with
`base = getComplexFresnel(n,k,1)` and `reflection = getComplexFresnel(n,k,0)`
as computed before the sweep (lines 213-216). -/
noncomputable def errSum (n k : Color) (ior : ℝ) : ℝ :=
  (fitterSamples.map (fun x =>
    (getVRayMetallicFresnel (getComplexFresnel n k 1) (getComplexFresnel n k 0) ior x
      - getComplexFresnel n k x).lengthSqr)).sum

/-- The sweep's candidate grid `for (float ior=1.001f; ior<10.0f; ior+=0.001f)`
(metalness.cpp line 223), in exact arithmetic: `1.001 + 0.001*i` for `i < 8999`. -/
noncomputable def iorGrid : List ℝ :=
  (List.range 8999).map (fun i : ℕ => 1.001 + 0.001 * (i : ℝ))

/-- One step of the sweep: replace `(bestResult, bestIOR)` exactly when the new
sum is strictly smaller (metalness.cpp lines 240-243). -/
noncomputable def fitStep (n k : Color) (acc : ℝ × ℝ) (ior : ℝ) : ℝ × ℝ :=
  let sum := errSum n k ior
  if sum < acc.1 then (sum, ior) else acc

/-- `findIOR(n, k)` (metalness.cpp lines 208-248): sweep the grid starting from
the sentinel state `(bestResult, bestIOR) = (1e18, -1)` and return `bestIOR`. -/
noncomputable def findIOR (n k : Color) : ℝ :=
  (iorGrid.foldl (fitStep n k) ((1e18 : ℝ), (-1 : ℝ))).2

/-- A metal preset with n and k values for three wavelengths
(metalness.cpp lines 155-158). -/
structure MetalPreset where
  name : String
  n : Color
  k : Color

instance : Inhabited MetalPreset := ⟨⟨"", default, default⟩⟩

/-- The preset table (metalness.cpp lines 182-198). -/
noncomputable def metalPresets : List MetalPreset := [
  ⟨"Silver", ⟨0.052225, 0.059582, 0.040000⟩, ⟨4.4094, 3.5974, 2.6484⟩⟩,
  ⟨"Gold", ⟨0.15557, 0.42415, 1.3831⟩, ⟨3.6024, 2.4721, 1.9155⟩⟩,
  ⟨"Copper", ⟨0.23780, 1.0066, 1.2404⟩, ⟨3.6264, 2.5823, 2.3929⟩⟩,
  ⟨"Aluminum", ⟨1.5580, 1.0152, 0.63324⟩, ⟨7.7124, 6.6273, 5.4544⟩⟩,
  ⟨"Chromium", ⟨3.1071, 3.1812, 2.3230⟩, ⟨3.3314, 3.3291, 3.1350⟩⟩,
  ⟨"Lead", ⟨2.5750, 2.5444, 2.1038⟩, ⟨4.1612, 4.1823, 4.1890⟩⟩,
  ⟨"Platinum", ⟨0.47475, 0.46521, 0.63275⟩, ⟨6.3329, 5.1073, 3.7481⟩⟩,
  ⟨"Titanium", ⟨0.25300, 0.28822, 0.52181⟩, ⟨5.2796, 4.2122, 3.0367⟩⟩,
  ⟨"Tungsten", ⟨0.92074, 1.3437, 2.2323⟩, ⟨6.8595, 5.2293, 5.1461⟩⟩,
  ⟨"Iron", ⟨1.8247, 1.2246, 1.0205⟩, ⟨7.6326, 5.9377, 4.3952⟩⟩,
  ⟨"Vanadium", ⟨0.43109, 0.60711, 0.91187⟩, ⟨5.5575, 4.5217, 3.6035⟩⟩,
  ⟨"Zinc", ⟨1.2338, 0.92943, 0.67767⟩, ⟨5.8730, 4.9751, 4.0122⟩⟩,
  ⟨"Nickel", ⟨1.3726, 1.0753, 1.1336⟩, ⟨6.6273, 5.1763, 3.7544⟩⟩,
  ⟨"Mercury", ⟨2.0733, 1.5523, 1.0606⟩, ⟨5.3383, 4.6510, 3.8628⟩⟩,
  ⟨"Cobalt", ⟨2.2371, 2.0524, 1.7365⟩, ⟨4.2357, 3.8242, 3.2745⟩⟩]

/-- `bwidth` (metalness.cpp line 19). -/
def bwidth : ℕ := 800

/-- The driver's sample bound `int N=(bwidth*2)` in `renderCycle`
(metalness.cpp line 298). -/
def N : ℕ := bwidth * 2

/-- The driver's angle-sample indices `for (int xs=1; xs<N; xs++)`
(metalness.cpp line 299). -/
def driverXs : List ℕ := List.range' 1 (N - 1)

/-- The driver's cosine samples `x = xs / N` (metalness.cpp line 300). -/
noncomputable def driverSamples : List ℝ :=
  driverXs.map (fun xs : ℕ => (xs : ℝ) / (N : ℝ))

/-- One driver angle sample's squared error between the VRayMtl curve and the
complex Fresnel curve (metalness.cpp line 334). -/
noncomputable def vrayTerm (n k : Color) (ior : ℝ) (xs : ℕ) : ℝ :=
  (getVRayMetallicFresnel (getComplexFresnel n k 1) (getComplexFresnel n k 0)
      ior ((xs : ℝ) / (N : ℝ))
    - getComplexFresnel n k ((xs : ℝ) / (N : ℝ))).lengthSqr

/-- One driver angle sample's squared error between the Ole curve and the
complex Fresnel curve (metalness.cpp line 335). -/
noncomputable def oleTerm (n k : Color) (xs : ℕ) : ℝ :=
  (getOleMetallicFresnel (getComplexFresnel n k 1) (getComplexFresnel n k 0)
      ((xs : ℝ) / (N : ℝ))
    - getComplexFresnel n k ((xs : ℝ) / (N : ℝ))).lengthSqr

/-- One iteration of the driver's error-accumulation loop (metalness.cpp
lines 299-336, error accumulation only). -/
noncomputable def renderStep (n k : Color) (ior : ℝ) (acc : ℝ × ℝ) (xs : ℕ) : ℝ × ℝ :=
  (acc.1 + vrayTerm n k ior xs, acc.2 + oleTerm n k xs)

/-- The accumulated `(vrayErrorSqr, oleErrorSqr)` pair after the driver's
loop over its angle samples. -/
noncomputable def renderErrAcc (n k : Color) (ior : ℝ) : ℝ × ℝ :=
  driverXs.foldl (renderStep n k ior) (0, 0)

/-- `vrayError` (metalness.cpp lines 339 and 342): accumulated squared error
divided by `N`, square-rooted, at the fitted IOR. -/
noncomputable def vrayError (n k : Color) : ℝ :=
  Real.sqrt ((renderErrAcc n k (findIOR n k)).1 / (N : ℝ))

/-- `oleError` (metalness.cpp lines 340 and 343). -/
noncomputable def oleError (n k : Color) : ℝ :=
  Real.sqrt ((renderErrAcc n k (findIOR n k)).2 / (N : ℝ))

/-- The per-preset record `renderCycle` reports (metalness.cpp lines 346-355):
name, base and grazing reflection colors, fitted IOR and the two error scores. -/
structure ResultRec where
  name : String
  base : Color
  reflection : Color
  ior : ℝ
  vrayErr : ℝ
  oleErr : ℝ

/-- The record `renderCycle` derives from one preset. -/
noncomputable def mkRecord (p : MetalPreset) : ResultRec :=
  { name := p.name
    base := getComplexFresnel p.n p.k 1
    reflection := getComplexFresnel p.n p.k 0
    ior := findIOR p.n p.k
    vrayErr := vrayError p.n p.k
    oleErr := oleError p.n p.k }

/-- The driver loop of `renderCycle` (metalness.cpp lines 272-362): iterate
the preset indices in order, read the table entry at each index, emit one
record per preset, and pass the table state along (the loop only reads it). -/
noncomputable def renderCycle (table : List MetalPreset) :
    List ResultRec × List MetalPreset :=
  (List.range table.length).foldl
    (fun st presetIdx => (st.1 ++ [mkRecord (st.2.getD presetIdx default)], st.2))
    ([], table)

theorem Color.sub_def (x y : Color) :
    x - y = ⟨x.r - y.r, x.g - y.g, x.b - y.b⟩ := rfl

theorem clamp_mem (x a b : ℝ) (hab : a ≤ b) :
    a ≤ clamp x a b ∧ clamp x a b ≤ b := by
  unfold clamp
  split
  · exact ⟨le_refl a, hab⟩
  · split
    · exact ⟨hab, le_refl b⟩
    · constructor
      · exact le_of_not_lt (by assumption)
      · exact le_of_not_lt (by assumption)

theorem clamp_eq_self (x a b : ℝ) (h1 : a ≤ x) (h2 : x ≤ b) :
    clamp x a b = x := by
  unfold clamp
  rw [if_neg (not_lt.mpr h1), if_neg (not_lt.mpr h2)]

theorem complexFresnel_mem (n k c : ℝ) :
    0 ≤ complexFresnel n k c ∧ complexFresnel n k c ≤ 1 :=
  clamp_mem _ 0 1 (by norm_num)

/-- C1: at normal incidence (`cosTheta = 1`) the Physical Fresnel Model equals
the closed form `((n-1)^2 + k^2) / ((n+1)^2 + k^2)` for any `n ≥ 0`, `k ≥ 0`. -/
theorem complexFresnel_at_normal_incidence (n k : ℝ) (hn : 0 ≤ n) (hk : 0 ≤ k) :
    complexFresnel n k 1 = ((n - 1) ^ 2 + k ^ 2) / ((n + 1) ^ 2 + k ^ 2) := by
  have hP : (0 : ℝ) ≤ (n - 1) ^ 2 + k ^ 2 := by positivity
  have hQ : (0 : ℝ) < (n + 1) ^ 2 + k ^ 2 := by positivity
  have hPQ : (n - 1) ^ 2 + k ^ 2 ≤ (n + 1) ^ 2 + k ^ 2 := by nlinarith
  have hnum_s : rs_num n k 1 = (n - 1) ^ 2 + k ^ 2 := by unfold rs_num; ring
  have hden_s : rs_den n k 1 = (n + 1) ^ 2 + k ^ 2 := by unfold rs_den; ring
  have hnum_p : rp_num n k 1 = (n - 1) ^ 2 + k ^ 2 := by unfold rp_num; ring
  have hden_p : rp_den n k 1 = (n + 1) ^ 2 + k ^ 2 := by unfold rp_den; ring
  have hval : 0.5 * (rs_num n k 1 / rs_den n k 1 + rp_num n k 1 / rp_den n k 1)
      = ((n - 1) ^ 2 + k ^ 2) / ((n + 1) ^ 2 + k ^ 2) := by
    rw [hnum_s, hden_s, hnum_p, hden_p]; ring
  unfold complexFresnel
  rw [hval]
  exact clamp_eq_self _ 0 1 (div_nonneg hP hQ.le) (div_le_one_of_le₀ hPQ hQ.le)

/-- Witness for C1 at `(n, k) = (2, 3)`. -/
theorem complexFresnel_at_normal_incidence_witness :
    (0 : ℝ) ≤ 2 ∧ (0 : ℝ) ≤ 3 ∧
      complexFresnel 2 3 1 = (((2 : ℝ) - 1) ^ 2 + 3 ^ 2) / ((2 + 1) ^ 2 + 3 ^ 2) :=
  ⟨by norm_num, by norm_num,
    complexFresnel_at_normal_incidence 2 3 (by norm_num) (by norm_num)⟩

/-- C2: for inputs with nonnegative `n`, `k` components and `cosTheta ∈ [0,1]`,
every component of the Physical Fresnel Model output lies in `[0, 1]`. -/
theorem getComplexFresnel_components_mem_unit (n k : Color) (c : ℝ)
    (hc0 : 0 ≤ c) (hc1 : c ≤ 1)
    (hnr : 0 ≤ n.r) (hng : 0 ≤ n.g) (hnb : 0 ≤ n.b)
    (hkr : 0 ≤ k.r) (hkg : 0 ≤ k.g) (hkb : 0 ≤ k.b) :
    (0 ≤ (getComplexFresnel n k c).r ∧ (getComplexFresnel n k c).r ≤ 1) ∧
    (0 ≤ (getComplexFresnel n k c).g ∧ (getComplexFresnel n k c).g ≤ 1) ∧
    (0 ≤ (getComplexFresnel n k c).b ∧ (getComplexFresnel n k c).b ≤ 1) :=
  ⟨complexFresnel_mem n.r k.r c, complexFresnel_mem n.g k.g c,
    complexFresnel_mem n.b k.b c⟩

/-- Witness for C2 at `n = k = (1,1,1)`, `cosTheta = 1/2`. -/
theorem getComplexFresnel_components_mem_unit_witness :
    (0 : ℝ) ≤ 1 / 2 ∧ (1 : ℝ) / 2 ≤ 1 ∧
    ((0 ≤ (getComplexFresnel ⟨1, 1, 1⟩ ⟨1, 1, 1⟩ (1 / 2)).r ∧
        (getComplexFresnel ⟨1, 1, 1⟩ ⟨1, 1, 1⟩ (1 / 2)).r ≤ 1) ∧
      (0 ≤ (getComplexFresnel ⟨1, 1, 1⟩ ⟨1, 1, 1⟩ (1 / 2)).g ∧
        (getComplexFresnel ⟨1, 1, 1⟩ ⟨1, 1, 1⟩ (1 / 2)).g ≤ 1) ∧
      (0 ≤ (getComplexFresnel ⟨1, 1, 1⟩ ⟨1, 1, 1⟩ (1 / 2)).b ∧
        (getComplexFresnel ⟨1, 1, 1⟩ ⟨1, 1, 1⟩ (1 / 2)).b ≤ 1)) :=
  ⟨by norm_num, by norm_num,
    getComplexFresnel_components_mem_unit ⟨1, 1, 1⟩ ⟨1, 1, 1⟩ (1 / 2)
      (by norm_num) (by norm_num) (by norm_num) (by norm_num) (by norm_num)
      (by norm_num) (by norm_num) (by norm_num)⟩

/-- C3 counterexample: at `n = k = cosTheta = 0` the `rs` denominator is zero,
yet `complexFresnel` performs no guarded special case and does not return `1`:
the division goes through unguarded (NaN in C float arithmetic; `0` under the
total-division convention, so the clamped result is `1/2`). -/
theorem complexFresnel_no_guard_counterexample :
    rs_den 0 0 0 = 0 ∧ complexFresnel 0 0 0 = 1 / 2 ∧ complexFresnel 0 0 0 ≠ 1 := by
  refine ⟨by norm_num [rs_den], ?_, ?_⟩
  · norm_num [complexFresnel, clamp, rs_num, rs_den, rp_num, rp_den]
  · norm_num [complexFresnel, clamp, rs_num, rs_den, rp_num, rp_den]

/-- C3 (amended): over the domain `n ≥ 0`, `k ≥ 0`, `cosTheta ∈ [0,1]` the `rp`
denominator is always at least `1`, and the `rs` denominator vanishes exactly
at `n = k = cosTheta = 0`; away from that single degenerate point both
denominators are strictly positive, so the model is total there. The code
contains no guard at the degenerate point. -/
theorem complexFresnel_denominators_positive (n k c : ℝ)
    (hn : 0 ≤ n) (hk : 0 ≤ k) (hc0 : 0 ≤ c) (hc1 : c ≤ 1) :
    (rs_den n k c = 0 ↔ n = 0 ∧ k = 0 ∧ c = 0) ∧ (1 : ℝ) ≤ rp_den n k c := by
  constructor
  · constructor
    · intro h0
      unfold rs_den at h0
      refine ⟨?_, ?_, ?_⟩ <;> nlinarith [sq_nonneg n, sq_nonneg k, sq_nonneg c, mul_nonneg hn hc0]
    · rintro ⟨rfl, rfl, rfl⟩
      norm_num [rs_den]
  · unfold rp_den
    nlinarith [sq_nonneg (n * c), sq_nonneg (k * c), mul_nonneg hn hc0]

/-- Witness for C3's amended theorem at `(n, k, c) = (1, 0, 1/2)`. -/
theorem complexFresnel_denominators_positive_witness :
    (0 : ℝ) ≤ 1 ∧ (0 : ℝ) ≤ 0 ∧ (0 : ℝ) ≤ 1 / 2 ∧ (1 : ℝ) / 2 ≤ 1 ∧
    ((rs_den 1 0 (1 / 2) = 0 ↔ (1 : ℝ) = 0 ∧ (0 : ℝ) = 0 ∧ (1 : ℝ) / 2 = 0) ∧
      (1 : ℝ) ≤ rp_den 1 0 (1 / 2)) :=
  ⟨by norm_num, by norm_num, by norm_num, by norm_num,
    complexFresnel_denominators_positive 1 0 (1 / 2)
      (by norm_num) (by norm_num) (by norm_num) (by norm_num)⟩

/-- C10: the Reference Approximation's closed-form back-solve exactly inverts
the normal-incidence forward map: with `r = get_r n k` and `g = get_g n k`,
`get_n r g = n` and `get_k2 r (get_n r g) = k ^ 2`, for every `n > 0`, `k ≥ 0`
(exact real arithmetic; at the degenerate point `n = 1, k = 0` the identity
holds under the total-division convention `0 / 0 = 0`). -/
theorem backsolve_inverts_forward (n k : ℝ) (hn : 0 < n) (hk : 0 ≤ k) :
    get_n (get_r n k) (get_g n k) = n ∧
    get_k2 (get_r n k) (get_n (get_r n k) (get_g n k)) = k ^ 2 := by
  by_cases hP : (n - 1) * (n - 1) + k * k = 0
  · have hn1 : n = 1 := by nlinarith [mul_self_nonneg (n - 1), mul_self_nonneg k]
    have hk0 : k = 0 := by nlinarith [mul_self_nonneg (n - 1), mul_self_nonneg k]
    subst hn1; subst hk0
    constructor <;>
      norm_num [get_r, get_g, get_n, get_k2, n_min, n_max, Real.sqrt_zero]
  · have hQ : (0 : ℝ) < (n + 1) * (n + 1) + k * k := by nlinarith
    have hPnn : (0 : ℝ) ≤ (n - 1) * (n - 1) + k * k := by
      nlinarith [mul_self_nonneg (n - 1), mul_self_nonneg k]
    have hPpos : (0 : ℝ) < (n - 1) * (n - 1) + k * k := lt_of_le_of_ne hPnn (Ne.symm hP)
    have hr0 : 0 < get_r n k := by unfold get_r; exact div_pos hPpos hQ
    have hr1 : get_r n k < 1 := by unfold get_r; rw [div_lt_one hQ]; nlinarith
    have hs0 : 0 < Real.sqrt (get_r n k) := Real.sqrt_pos.mpr hr0
    have hs1 : Real.sqrt (get_r n k) < 1 := by
      have h := Real.sqrt_lt_sqrt (le_of_lt hr0) hr1
      simpa using h
    have hnmax : 1 < n_max (get_r n k) := by
      unfold n_max; rw [one_lt_div (by linarith)]; linarith
    have hnmin : n_min (get_r n k) < 1 := by
      unfold n_min; rw [div_lt_one (by linarith)]; linarith
    have hD : 0 < n_max (get_r n k) - n_min (get_r n k) := by linarith
    have key : get_g n k * (n_max (get_r n k) - n_min (get_r n k))
        = n_max (get_r n k) - n := by
      unfold get_g; exact div_mul_cancel₀ _ (ne_of_gt hD)
    have h1 : get_n (get_r n k) (get_g n k) = n := by
      unfold get_n
      have expand : n_min (get_r n k) * get_g n k
            + (1 - get_g n k) * n_max (get_r n k)
          = n_max (get_r n k)
            - get_g n k * (n_max (get_r n k) - n_min (get_r n k)) := by ring
      rw [expand, key]; ring
    refine ⟨h1, ?_⟩
    rw [h1]
    have hQne : ((n + 1) * (n + 1) + k * k) ≠ 0 := ne_of_gt hQ
    have h1r : (1 : ℝ)
        - ((n - 1) * (n - 1) + k * k) / ((n + 1) * (n + 1) + k * k) ≠ 0 := by
      have hrw : (1 : ℝ)
            - ((n - 1) * (n - 1) + k * k) / ((n + 1) * (n + 1) + k * k)
          = 4 * n / ((n + 1) * (n + 1) + k * k) := by
        field_simp
        ring
      rw [hrw]
      exact ne_of_gt (div_pos (by linarith) hQ)
    have hnne : n ≠ 0 := ne_of_gt hn
    unfold get_k2 get_r
    field_simp
    have hnum : (n + 1) * (n + 1) * ((n - 1) * (n - 1) + k * k)
          - ((n + 1) * (n + 1) + k * k) * ((n - 1) * (n - 1))
        = 4 * n * k ^ 2 := by ring
    have hden : (n + 1) * (n + 1) - (n - 1) * (n - 1) = 4 * n := by ring
    rw [hnum, hden]
    exact mul_div_cancel_left₀ _ (by positivity)

theorem div_sq_le_one (a b : ℝ) (ha : 0 ≤ a) (hb : 0 ≤ b) :
    ((a - b) / (a + b)) * ((a - b) / (a + b)) ≤ 1 := by
  rcases eq_or_lt_of_le (add_nonneg ha hb) with h | h
  · rw [← h, div_zero, mul_zero]
    norm_num
  · have h2 : (a - b) * (a - b) ≤ (a + b) * (a + b) := by nlinarith
    rw [div_mul_div_comm]
    exact div_le_one_of_le₀ h2 (by positivity)

theorem getFresnelCoeff_mem (ior cs : ℝ) (hior : 0 ≤ ior) (hcs : 0 ≤ cs) :
    0 ≤ getFresnelCoeff ior cs ∧ getFresnelCoeff ior cs ≤ 1 := by
  unfold getFresnelCoeff
  dsimp only
  by_cases h : 1 < (1 - cs * cs) / (ior * ior)
  · simp only [if_pos h]
    norm_num
  · simp only [if_neg h]
    set ct := Real.sqrt (1 - (1 - cs * cs) / (ior * ior)) with hct
    have hct0 : 0 ≤ ct := Real.sqrt_nonneg _
    have hs := div_sq_le_one cs (ior * ct) hcs (mul_nonneg hior hct0)
    have hp := div_sq_le_one ct (ior * cs) hct0 (mul_nonneg hior hcs)
    constructor
    · nlinarith [mul_self_nonneg ((cs - ior * ct) / (cs + ior * ct)),
        mul_self_nonneg ((ct - ior * cs) / (ct + ior * cs))]
    · nlinarith

/-- C7: when the grazing (reflection) color equals the base color, the
Production Approximation returns exactly the base color for every
`param > 1` and `cosTheta ∈ [0, 1]`: the blend `base*(1-f) + base*f` is a
no-op regardless of the Fresnel coefficient. -/
theorem getVRayMetallicFresnel_degenerate_blend (base : Color) (ior cs : ℝ)
    (hior : 1 < ior) (hcs0 : 0 ≤ cs) (hcs1 : cs ≤ 1) :
    getVRayMetallicFresnel base base ior cs = base := by
  cases base with
  | mk r g b =>
    simp only [getVRayMetallicFresnel, Color.mk.injEq]
    refine ⟨by ring, by ring, by ring⟩

/-- Witness for C7 at `base = (1/2, 1/3, 1/4)`, `param = 2`, `cosTheta = 1/2`. -/
theorem getVRayMetallicFresnel_degenerate_blend_witness :
    (1 : ℝ) < 2 ∧ (0 : ℝ) ≤ 1 / 2 ∧ (1 : ℝ) / 2 ≤ 1 ∧
    getVRayMetallicFresnel ⟨1 / 2, 1 / 3, 1 / 4⟩ ⟨1 / 2, 1 / 3, 1 / 4⟩ 2 (1 / 2)
      = ⟨1 / 2, 1 / 3, 1 / 4⟩ :=
  ⟨by norm_num, by norm_num, by norm_num,
    getVRayMetallicFresnel_degenerate_blend ⟨1 / 2, 1 / 3, 1 / 4⟩ 2 (1 / 2)
      (by norm_num) (by norm_num) (by norm_num)⟩

/-- Witness for C10 at `(n, k) = (2, 1)`. -/
theorem backsolve_inverts_forward_witness :
    (0 : ℝ) < 2 ∧ (0 : ℝ) ≤ 1 ∧
    (get_n (get_r 2 1) (get_g 2 1) = 2 ∧
      get_k2 (get_r 2 1) (get_n (get_r 2 1) (get_g 2 1)) = (1 : ℝ) ^ 2) :=
  ⟨by norm_num, by norm_num,
    backsolve_inverts_forward 2 1 (by norm_num) (by norm_num)⟩

theorem getD_mem_of_lt {α : Type} (l : List α) (d : α) :
    ∀ i, i < l.length → l.getD i d ∈ l := by
  induction l with
  | nil => intro i h; simp at h
  | cons x t ih =>
    intro i h
    cases i with
    | zero => simp
    | succ i' =>
      simp only [List.getD_cons_succ]
      exact List.mem_cons_of_mem _ (ih i' (by simpa using h))

theorem mem_iorGrid_bounds (x : ℝ) (hx : x ∈ iorGrid) : 1 < x ∧ x < 10 := by
  simp only [iorGrid, List.mem_map, List.mem_range] at hx
  obtain ⟨i, hi, rfl⟩ := hx
  have hi' : (i : ℝ) ≤ 8998 := by exact_mod_cast Nat.lt_succ_iff.mp hi
  have h0 : (0 : ℝ) ≤ (i : ℝ) := Nat.cast_nonneg i
  constructor <;> nlinarith

theorem fitterSamples_nonneg : ∀ x ∈ fitterSamples, 0 ≤ x := by
  intro x hx
  simp only [fitterSamples, List.mem_map] at hx
  obtain ⟨xs, _, rfl⟩ := hx
  positivity

theorem map_sum_le (l : List ℝ) (F : ℝ → ℝ) (b : ℝ) (h : ∀ x ∈ l, F x ≤ b) :
    (l.map F).sum ≤ l.length * b := by
  induction l with
  | nil => simp
  | cons x t ih =>
    simp only [List.map_cons, List.sum_cons, List.length_cons]
    have h1 := h x (List.mem_cons_self x t)
    have h2 := ih fun y hy => h y (List.mem_cons_of_mem x hy)
    have expand : (((t.length : ℕ) + 1 : ℕ) : ℝ) * b = (t.length : ℝ) * b + b := by
      push_cast
      ring
    rw [expand]
    linarith

theorem comp_diff_sq_le (b r c f : ℝ) (hb0 : 0 ≤ b) (hb1 : b ≤ 1)
    (hr0 : 0 ≤ r) (hr1 : r ≤ 1) (hc0 : 0 ≤ c) (hc1 : c ≤ 1)
    (hf0 : 0 ≤ f) (hf1 : f ≤ 1) :
    (b * (1 - f) + r * f - c) * (b * (1 - f) + r * f - c) ≤ 1 := by
  have hv0 : 0 ≤ b * (1 - f) + r * f := by nlinarith
  have hv1 : b * (1 - f) + r * f ≤ 1 := by nlinarith
  nlinarith

theorem errTerm_le (n k : Color) (ior x : ℝ) (hior : 0 ≤ ior) (hx : 0 ≤ x) :
    (getVRayMetallicFresnel (getComplexFresnel n k 1) (getComplexFresnel n k 0) ior x
      - getComplexFresnel n k x).lengthSqr ≤ 3 := by
  obtain ⟨hf0, hf1⟩ := getFresnelCoeff_mem ior x hior hx
  have h1 := comp_diff_sq_le (complexFresnel n.r k.r 1) (complexFresnel n.r k.r 0)
    (complexFresnel n.r k.r x) (getFresnelCoeff ior x)
    (complexFresnel_mem n.r k.r 1).1 (complexFresnel_mem n.r k.r 1).2
    (complexFresnel_mem n.r k.r 0).1 (complexFresnel_mem n.r k.r 0).2
    (complexFresnel_mem n.r k.r x).1 (complexFresnel_mem n.r k.r x).2 hf0 hf1
  have h2 := comp_diff_sq_le (complexFresnel n.g k.g 1) (complexFresnel n.g k.g 0)
    (complexFresnel n.g k.g x) (getFresnelCoeff ior x)
    (complexFresnel_mem n.g k.g 1).1 (complexFresnel_mem n.g k.g 1).2
    (complexFresnel_mem n.g k.g 0).1 (complexFresnel_mem n.g k.g 0).2
    (complexFresnel_mem n.g k.g x).1 (complexFresnel_mem n.g k.g x).2 hf0 hf1
  have h3 := comp_diff_sq_le (complexFresnel n.b k.b 1) (complexFresnel n.b k.b 0)
    (complexFresnel n.b k.b x) (getFresnelCoeff ior x)
    (complexFresnel_mem n.b k.b 1).1 (complexFresnel_mem n.b k.b 1).2
    (complexFresnel_mem n.b k.b 0).1 (complexFresnel_mem n.b k.b 0).2
    (complexFresnel_mem n.b k.b x).1 (complexFresnel_mem n.b k.b x).2 hf0 hf1
  simp only [getVRayMetallicFresnel, getComplexFresnel, Color.sub_def, Color.lengthSqr]
  linarith

theorem errSum_le (n k : Color) (ior : ℝ) (hior : 0 ≤ ior) :
    errSum n k ior ≤ 597 := by
  unfold errSum
  have hb : ∀ x ∈ fitterSamples,
      (getVRayMetallicFresnel (getComplexFresnel n k 1) (getComplexFresnel n k 0) ior x
        - getComplexFresnel n k x).lengthSqr ≤ 3 := by
    intro x hx
    exact errTerm_le n k ior x hior (fitterSamples_nonneg x hx)
  have h := map_sum_le fitterSamples _ 3 hb
  have hlen : (fitterSamples.length : ℝ) = 199 := by
    rw [fitterSamples, List.length_map, fitterXs, List.length_range']
    norm_num
  rw [hlen] at h
  linarith

theorem fitScan (n k : Color) :
    ∀ (l : List ℝ) (acc : ℝ × ℝ),
      (List.foldl (fitStep n k) acc l = acc ∧ ∀ x ∈ l, acc.1 ≤ errSum n k x) ∨
      (∃ j, j < l.length ∧
        List.foldl (fitStep n k) acc l = (errSum n k (l.getD j 0), l.getD j 0) ∧
        errSum n k (l.getD j 0) < acc.1 ∧
        (∀ i, i < l.length →
          errSum n k (l.getD j 0) ≤ errSum n k (l.getD i 0)) ∧
        (∀ i, i < j → errSum n k (l.getD j 0) < errSum n k (l.getD i 0))) := by
  intro l
  induction l with
  | nil =>
    intro acc
    left
    exact ⟨rfl, by simp⟩
  | cons x t ih =>
    intro acc
    rw [List.foldl_cons]
    by_cases hx : errSum n k x < acc.1
    · have hstep : fitStep n k acc x = (errSum n k x, x) := by
        unfold fitStep
        exact if_pos hx
      rw [hstep]
      rcases ih (errSum n k x, x) with ⟨heq, hall⟩ | ⟨j, hj, heq, hlt, hmin, hfirst⟩
      · right
        refine ⟨0, by simp, ?_, ?_, ?_, ?_⟩
        · simpa using heq
        · simpa using hx
        · intro i hi
          cases i with
          | zero => simp
          | succ i' =>
            simp only [List.getD_cons_zero, List.getD_cons_succ]
            exact hall _ (getD_mem_of_lt t 0 i' (by simpa using hi))
        · intro i hi
          exact absurd hi (Nat.not_lt_zero i)
      · right
        have hlt' : errSum n k (t.getD j 0) < errSum n k x := hlt
        refine ⟨j + 1, by simp only [List.length_cons]; omega, ?_, ?_, ?_, ?_⟩
        · simpa [List.getD_cons_succ] using heq
        · simp only [List.getD_cons_succ]
          linarith
        · intro i hi
          cases i with
          | zero =>
            simp only [List.getD_cons_succ, List.getD_cons_zero]
            linarith
          | succ i' =>
            simp only [List.getD_cons_succ]
            exact hmin i' (by simpa using hi)
        · intro i hi
          cases i with
          | zero =>
            simp only [List.getD_cons_succ, List.getD_cons_zero]
            linarith
          | succ i' =>
            simp only [List.getD_cons_succ]
            exact hfirst i' (by omega)
    · have hstep : fitStep n k acc x = acc := by
        unfold fitStep
        exact if_neg hx
      rw [hstep]
      have hxge : acc.1 ≤ errSum n k x := le_of_not_lt hx
      rcases ih acc with ⟨heq, hall⟩ | ⟨j, hj, heq, hlt, hmin, hfirst⟩
      · left
        refine ⟨heq, ?_⟩
        intro y hy
        rcases List.mem_cons.mp hy with rfl | hy'
        · exact hxge
        · exact hall y hy'
      · right
        refine ⟨j + 1, by simp only [List.length_cons]; omega, ?_, ?_, ?_, ?_⟩
        · simpa [List.getD_cons_succ] using heq
        · simp only [List.getD_cons_succ]
          exact hlt
        · intro i hi
          cases i with
          | zero =>
            simp only [List.getD_cons_succ, List.getD_cons_zero]
            linarith
          | succ i' =>
            simp only [List.getD_cons_succ]
            exact hmin i' (by simpa using hi)
        · intro i hi
          cases i with
          | zero =>
            simp only [List.getD_cons_succ, List.getD_cons_zero]
            linarith
          | succ i' =>
            simp only [List.getD_cons_succ]
            exact hfirst i' (by omega)

/-- C5: the sweep breaks ties in favour of the first candidate: `findIOR`
returns the earliest-scanned grid parameter whose accumulated squared-error
sum attains the minimum over the whole grid, and every earlier candidate has
a strictly larger sum (so later candidates with an equal sum never replace
the incumbent). -/
theorem findIOR_first_argmin (n k : Color) :
    ∃ j, j < iorGrid.length ∧
      findIOR n k = iorGrid.getD j 0 ∧
      (∀ i, i < iorGrid.length →
        errSum n k (iorGrid.getD j 0) ≤ errSum n k (iorGrid.getD i 0)) ∧
      (∀ i, i < j →
        errSum n k (iorGrid.getD j 0) < errSum n k (iorGrid.getD i 0)) := by
  have hmem : (1.001 + 0.001 * ((0 : ℕ) : ℝ)) ∈ iorGrid := by
    have h0 : (0 : ℕ) ∈ List.range 8999 := List.mem_range.mpr (by norm_num)
    rw [iorGrid]
    exact List.mem_map_of_mem (fun i : ℕ => 1.001 + 0.001 * (i : ℝ)) h0
  have hle : errSum n k (1.001 + 0.001 * ((0 : ℕ) : ℝ)) ≤ 597 :=
    errSum_le n k _ (by norm_num)
  rcases fitScan n k iorGrid ((1e18 : ℝ), (-1 : ℝ)) with
    ⟨heq, hall⟩ | ⟨j, hj, heq, hlt, hmin, hfirst⟩
  · exfalso
    have h1 : (1e18 : ℝ) ≤ errSum n k (1.001 + 0.001 * ((0 : ℕ) : ℝ)) := hall _ hmem
    norm_num at h1 hle
    linarith
  · refine ⟨j, hj, ?_, hmin, hfirst⟩
    unfold findIOR
    rw [heq]

theorem foldl_renderStep (n k : Color) (ior : ℝ) :
    ∀ (l : List ℕ) (a b : ℝ),
      List.foldl (renderStep n k ior) (a, b) l
        = (a + (l.map (vrayTerm n k ior)).sum, b + (l.map (oleTerm n k)).sum) := by
  intro l
  induction l with
  | nil =>
    intro a b
    simp
  | cons x t ih =>
    intro a b
    rw [List.foldl_cons]
    have hstep : renderStep n k ior (a, b) x
        = (a + vrayTerm n k ior x, b + oleTerm n k x) := rfl
    rw [hstep, ih]
    simp only [List.map_cons, List.sum_cons, Prod.mk.injEq]
    constructor <;> ring

/-- C6 counterexample: the error scores are not computed over the angle
samples used by the fitter: `renderCycle` sums 1599 samples at `xs/1600`
while the fitter uses 199 samples at `xs/200`, and the driver's divisor
`N = 1600` differs from the number of samples it actually sums (1599). -/
theorem driver_samples_differ_from_fitter :
    driverSamples.length = 1599 ∧ fitterSamples.length = 199 ∧
    driverSamples ≠ fitterSamples ∧ (N : ℝ) ≠ (driverXs.length : ℝ) := by
  have hd : driverSamples.length = 1599 := by
    rw [driverSamples, List.length_map, driverXs, List.length_range']
    norm_num [N, bwidth]
  have hf : fitterSamples.length = 199 := by
    rw [fitterSamples, List.length_map, fitterXs, List.length_range']
  refine ⟨hd, hf, ?_, ?_⟩
  · intro h
    rw [h, hf] at hd
    norm_num at hd
  · have hx : driverXs.length = 1599 := by
      rw [driverXs, List.length_range']
      norm_num [N, bwidth]
    rw [hx]
    norm_num [N, bwidth]

/-- C6 (amended): what `renderCycle` actually computes: `oleError` (the
reference RMSE) is the square root of the sum, over the driver's own 1599
angle samples `xs/1600`, of the squared Ole-vs-physical difference, divided
by `N = 1600`; and `vrayError` (the production RMSE) is likewise an
independently recomputed sum over those same 1599 driver samples at the
fitted IOR, divided by 1600.  The driver reuses neither the fitter's winning
sum nor its 199 angle samples, and the divisor 1600 is one more than the
1599 samples actually summed. -/
theorem renderErrors_closed_form (n k : Color) :
    vrayError n k
      = Real.sqrt ((driverXs.map (vrayTerm n k (findIOR n k))).sum / 1600) ∧
    oleError n k = Real.sqrt ((driverXs.map (oleTerm n k)).sum / 1600) ∧
    driverXs.length = 1599 := by
  have hN : (N : ℝ) = 1600 := by norm_num [N, bwidth]
  have hacc := foldl_renderStep n k (findIOR n k) driverXs 0 0
  refine ⟨?_, ?_, ?_⟩
  · unfold vrayError renderErrAcc
    rw [hacc, hN]
    norm_num
  · unfold oleError renderErrAcc
    rw [hacc, hN]
    norm_num
  · rw [driverXs, List.length_range']
    norm_num [N, bwidth]

/-- C4: for every `(n, k)` input, `findIOR` returns a best parameter strictly
inside the searched interval `(1, 10)` — in particular never its sentinel
initial value `-1` — and both derived error scores are non-negative
(finiteness is automatic in the exact real-number embedding). -/
theorem findIOR_in_open_interval (n k : Color) :
    1 < findIOR n k ∧ findIOR n k < 10 ∧ findIOR n k ≠ -1 ∧
    0 ≤ vrayError n k ∧ 0 ≤ oleError n k := by
  have hmem : (1.001 + 0.001 * ((0 : ℕ) : ℝ)) ∈ iorGrid := by
    have h0 : (0 : ℕ) ∈ List.range 8999 := List.mem_range.mpr (by norm_num)
    rw [iorGrid]
    exact List.mem_map_of_mem (fun i : ℕ => 1.001 + 0.001 * (i : ℝ)) h0
  have hle : errSum n k (1.001 + 0.001 * ((0 : ℕ) : ℝ)) ≤ 597 :=
    errSum_le n k _ (by norm_num)
  have hb : 1 < findIOR n k ∧ findIOR n k < 10 := by
    rcases fitScan n k iorGrid ((1e18 : ℝ), (-1 : ℝ)) with
      ⟨heq, hall⟩ | ⟨j, hj, heq, hlt, hmin, hfirst⟩
    · exfalso
      have h1 : (1e18 : ℝ) ≤ errSum n k (1.001 + 0.001 * ((0 : ℕ) : ℝ)) :=
        hall _ hmem
      norm_num at h1 hle
      linarith
    · have hgm : iorGrid.getD j 0 ∈ iorGrid := getD_mem_of_lt iorGrid 0 j hj
      have hbnd := mem_iorGrid_bounds _ hgm
      have hfix : findIOR n k = iorGrid.getD j 0 := by
        unfold findIOR
        rw [heq]
      rw [hfix]
      exact hbnd
  refine ⟨hb.1, hb.2, ?_, Real.sqrt_nonneg _, Real.sqrt_nonneg _⟩
  intro hcontra
  rw [hcontra] at hb
  linarith [hb.1]

/-- C8: the fitter is deterministic: two invocations of `findIOR` on equal
`(n, k)` inputs over the same grid return identical best parameters, and the
derived error scores are likewise identical.  In this embedding every run is
a pure function of its inputs alone (the C++ code reads no mutable state
inside `findIOR`), so identical inputs give identical outputs. -/
theorem findIOR_deterministic (n1 k1 n2 k2 : Color) (hn : n1 = n2) (hk : k1 = k2) :
    findIOR n1 k1 = findIOR n2 k2 ∧ vrayError n1 k1 = vrayError n2 k2 ∧
    oleError n1 k1 = oleError n2 k2 := by
  subst hn
  subst hk
  exact ⟨rfl, rfl, rfl⟩

/-- Witness for C8 at two syntactically equal concrete inputs. -/
theorem findIOR_deterministic_witness :
    (Color.mk 1 1 1 = Color.mk 1 1 1) ∧
    (findIOR ⟨1, 1, 1⟩ ⟨2, 2, 2⟩ = findIOR ⟨1, 1, 1⟩ ⟨2, 2, 2⟩ ∧
      vrayError ⟨1, 1, 1⟩ ⟨2, 2, 2⟩ = vrayError ⟨1, 1, 1⟩ ⟨2, 2, 2⟩ ∧
      oleError ⟨1, 1, 1⟩ ⟨2, 2, 2⟩ = oleError ⟨1, 1, 1⟩ ⟨2, 2, 2⟩) :=
  ⟨rfl, findIOR_deterministic ⟨1, 1, 1⟩ ⟨2, 2, 2⟩ ⟨1, 1, 1⟩ ⟨2, 2, 2⟩ rfl rfl⟩

theorem foldl_renderCycle (tbl : List MetalPreset) :
    ∀ (idxs : List ℕ) (acc : List ResultRec),
      List.foldl (fun st presetIdx =>
          (st.1 ++ [mkRecord (st.2.getD presetIdx default)], st.2)) (acc, tbl) idxs
        = (acc ++ idxs.map (fun i => mkRecord (tbl.getD i default)), tbl) := by
  intro idxs
  induction idxs with
  | nil =>
    intro acc
    simp
  | cons x t ih =>
    intro acc
    rw [List.foldl_cons]
    show List.foldl _ (acc ++ [mkRecord (tbl.getD x default)], tbl) t = _
    rw [ih]
    simp

theorem range_map_getD (tbl : List MetalPreset) :
    (List.range tbl.length).map (fun i => mkRecord (tbl.getD i default))
      = tbl.map mkRecord := by
  induction tbl with
  | nil => simp
  | cons p t ih =>
    rw [List.length_cons, List.range_succ_eq_map]
    rw [List.map_cons, List.map_map, List.map_cons]
    have hfun : ∀ i ∈ List.range t.length,
        ((fun i => mkRecord ((p :: t).getD i default)) ∘ Nat.succ) i
          = mkRecord (t.getD i default) := by
      intro i _
      simp [Function.comp]
    rw [List.map_congr_left hfun, ih]
    simp

theorem renderCycle_eq (table : List MetalPreset) :
    renderCycle table = (table.map mkRecord, table) := by
  unfold renderCycle
  rw [foldl_renderCycle table (List.range table.length) []]
  rw [List.nil_append, range_map_getD]

/-- C9: the Preset Driver iterates the preset table in table order and emits
exactly one record per preset — the output sequence is the table mapped
through `mkRecord`, of length 15 — while the preset-table state it carries
through the loop is left completely unchanged. -/
theorem renderCycle_table_order_and_immutable :
    (renderCycle metalPresets).1 = metalPresets.map mkRecord ∧
    (renderCycle metalPresets).1.length = 15 ∧
    (renderCycle metalPresets).2 = metalPresets := by
  rw [renderCycle_eq]
  refine ⟨rfl, ?_, rfl⟩
  rw [List.length_map]
  rfl

end Metalness
